import Mathlib

/-!
# Verification of the idempotent log aggregator core

Shallow embedding of the aggregator's core (src/main.py, src/database.py,
src/stats.py, src/models.py): an in-memory FIFO queue, batch-consuming
workers, a SQLite-backed dedup store using `INSERT OR IGNORE` keyed on
`(topic, event_id)`, and a statistics tracker.

Modelling conventions:
* The SQLite table `processed_events` is a `List Row` in insertion (rowid)
  order; `INSERT OR IGNORE` is a conditional append; `total_changes`
  accounting is the per-row 0/1 insertion count summed over the batch.
* Transaction atomicity of a batch commit is all-or-nothing: a failing
  commit (modelled by a `commitOk : Bool` flag, since the error is an
  external I/O condition) leaves the store unchanged and returns 0, as the
  `except aiosqlite.Error` branch does.
* `datetime.isoformat()` output is carried as the `timestamp : String`
  field (ISO-8601 strings compare lexicographically like the instants they
  encode, matching SQLite's BINARY collation on the TEXT column).
* The external `json` library's `dumps`/`loads` contract (loads is a left
  inverse of dumps on JSON values) is modelled by carrying the encoded
  value inside an opaque `JsonText` wrapper.
* Python floats in `stats.py` are modelled as rationals; Python's `round`
  (banker's rounding to `n` decimal digits) is `py_round`.
-/

/-- A scalar JSON value appearing inside an event payload. -/
inductive JsonVal where
  | null : JsonVal
  | bool (b : Bool) : JsonVal
  | num (n : Int) : JsonVal
  | str (s : String) : JsonVal
deriving DecidableEq

/-- A structured payload: `payload: Dict[str, Any]`, modelled as an
association list of string keys to JSON values. -/
abbrev Json := List (String × JsonVal)

/-- Model of `models.Event`: topic, event_id, timestamp (isoformat string), source,
structured payload. -/
structure Event where
  topic : String
  event_id : String
  timestamp : String
  source : String
  payload : Json
deriving DecidableEq

/-- Model of `Event.unique_key`: the dedup identity `(topic, event_id)`. -/
def Event.unique_key (e : Event) : String × String := (e.topic, e.event_id)

/-- The serialized TEXT form produced by `json.dumps`; represented by the
value it encodes, reflecting that `json.loads` inverts `json.dumps`. -/
structure JsonText where
  data : Json
deriving DecidableEq

/-- Model of `json.dumps` at the storage boundary. -/
def json_dumps (p : Json) : JsonText := ⟨p⟩

/-- Model of `json.loads` at the read-back boundary. -/
def json_loads (t : JsonText) : Json := t.data

/-- One row of the `processed_events` table
(topic, event_id, timestamp, source, payload_json). -/
structure Row where
  topic : String
  event_id : String
  timestamp : String
  source : String
  payload_json : JsonText
deriving DecidableEq

/-- The PRIMARY KEY `(topic, event_id)` of a row. -/
def Row.key (r : Row) : String × String := (r.topic, r.event_id)

/-- The tuple built for `executemany` from an event (database.py lines
41-49): `(topic, event_id, timestamp.isoformat(), source, dumps(payload))`. -/
def eventToRow (e : Event) : Row :=
  ⟨e.topic, e.event_id, e.timestamp, e.source, json_dumps e.payload⟩

/-- The dictionary `get_events_by_topic` builds from a row
(database.py lines 85-91), with `payload = json.loads(payload_json)`. -/
structure EventDict where
  topic : String
  event_id : String
  timestamp : String
  source : String
  payload : Json
deriving DecidableEq

def rowToDict (r : Row) : EventDict :=
  ⟨r.topic, r.event_id, r.timestamp, r.source, json_loads r.payload_json⟩

/-- Whether the table already holds a row with primary key `k`. -/
def hasKey (st : List Row) (k : String × String) : Bool :=
  st.any (fun r => r.key == k)

/-- One `INSERT OR IGNORE` statement execution: appends the row unless a
row with the same `(topic, event_id)` primary key exists; the second
component is this statement's contribution to `total_changes` (1 row
inserted, or 0 when ignored). -/
def db_insert_or_ignore (st : List Row) (r : Row) : List Row × Nat :=
  if hasKey st r.key then (st, 0) else (st ++ [r], 1)

/-- Model of `executemany` over the batch: each tuple runs the `INSERT OR IGNORE`
in sequence inside the transaction; the second component is the total
`total_changes` delta (rows actually inserted). -/
def db_executemany : List Row → List Row → List Row × Nat
  | st, [] => (st, 0)
  | st, r :: rows =>
    let p := db_insert_or_ignore st r
    let q := db_executemany p.1 rows
    (q.1, p.2 + q.2)

/-- Result of `batch_mark_events_processed`: the committed table state,
the returned count, and whether the `except` branch logged an error. -/
structure BatchResult where
  store : List Row
  count : Nat
  errorLogged : Bool
deriving DecidableEq

/-- Model of `database.batch_mark_events_processed(db, events)`: builds
`data_to_insert`, returns 0 on an empty batch, otherwise runs the batch as
one transaction (`executemany` + `commit`) and returns
`db.total_changes - initial_changes`; on `aiosqlite.Error` it logs and
returns 0 with nothing committed (`commitOk` models whether the
transaction succeeds, an external I/O condition). -/
def batch_mark_events_processed (st : List Row) (events : List Event)
    (commitOk : Bool) : BatchResult :=
  let data_to_insert := events.map eventToRow
  if data_to_insert.isEmpty then ⟨st, 0, false⟩
  else if commitOk then
    let p := db_executemany st data_to_insert
    ⟨p.1, p.2, false⟩
  else ⟨st, 0, true⟩

instance : IsTotal Row (fun a b => a.timestamp ≤ b.timestamp) :=
  ⟨fun a b => le_total a.timestamp b.timestamp⟩

instance : IsTrans Row (fun a b => a.timestamp ≤ b.timestamp) :=
  ⟨fun _ _ _ hab hbc => le_trans hab hbc⟩

/-- Model of `database.get_events_by_topic(topic)`:
`SELECT * FROM processed_events WHERE topic = ? ORDER BY timestamp`, each
row turned into a dictionary. `ORDER BY` on the TEXT column is modelled as
a sort by the timestamp string. -/
def get_events_by_topic (st : List Row) (topic : String) : List EventDict :=
  (List.insertionSort (fun a b => a.timestamp ≤ b.timestamp)
    (st.filter (fun r => r.topic == topic))).map rowToDict

/-- Model of `database.get_topic_stats()`: `COUNT(*)` grouped by topic, read as a
function from topic to count. -/
def get_topic_stats (st : List Row) (topic : String) : Nat :=
  (st.filter (fun r => r.topic == topic)).length

/-! ## Statistics tracker (src/stats.py) -/

/-- Model of `stats.StatsTracker`: counters plus the monotonic start instant
(floats modelled as rationals). -/
structure StatsTracker where
  received : Nat
  unique_processed : Nat
  duplicate_dropped : Nat
  start_time : ℚ
deriving DecidableEq

/-- Model of `StatsTracker.inc_received(count)`. -/
def inc_received (s : StatsTracker) (count : Nat) : StatsTracker :=
  { s with received := s.received + count }

/-- Model of `StatsTracker.inc_unique(count)`. -/
def inc_unique (s : StatsTracker) (count : Nat) : StatsTracker :=
  { s with unique_processed := s.unique_processed + count }

/-- Model of `StatsTracker.inc_duplicate(count)`. -/
def inc_duplicate (s : StatsTracker) (count : Nat) : StatsTracker :=
  { s with duplicate_dropped := s.duplicate_dropped + count }

/-- Round to the nearest integer, ties to the even integer: the behaviour
of Python's built-in `round`. -/
def round_half_even (q : ℚ) : ℤ :=
  if q - ⌊q⌋ < 1/2 then ⌊q⌋
  else if q - ⌊q⌋ > 1/2 then ⌊q⌋ + 1
  else if Even ⌊q⌋ then ⌊q⌋ else ⌊q⌋ + 1

/-- Python's `round(x, ndigits)` on our rational model of floats. -/
def py_round (q : ℚ) (ndigits : Nat) : ℚ :=
  (round_half_even (q * 10 ^ ndigits) : ℚ) / 10 ^ ndigits

/-- The dictionary returned by `StatsTracker.get_stats()`. -/
structure StatsSnapshot where
  received : Nat
  unique_processed : Nat
  duplicate_dropped : Nat
  uptime_seconds : ℚ
  throughput : ℚ
  duplicate_rate : ℚ
deriving DecidableEq

/-- Model of `StatsTracker.get_stats()` at monotonic instant `now`:
`uptime = now - start_time`, `throughput = round(unique/uptime, 4)` when
`uptime > 0` else 0, `duplicate_rate = round(dropped/received, 4)` when
`received > 0` else 0. -/
def get_stats (s : StatsTracker) (now : ℚ) : StatsSnapshot :=
  let uptime := now - s.start_time
  { received := s.received
    unique_processed := s.unique_processed
    duplicate_dropped := s.duplicate_dropped
    uptime_seconds := py_round uptime 2
    throughput :=
      if uptime > 0 then py_round ((s.unique_processed : ℚ) / uptime) 4 else 0
    duplicate_rate :=
      if s.received > 0
      then py_round ((s.duplicate_dropped : ℚ) / (s.received : ℚ)) 4 else 0 }

/-! ## Queue, consumer loop and system traces (src/main.py) -/

/-- Model of `CONSUMER_BATCH_SIZE` (main.py line 20). -/
def CONSUMER_BATCH_SIZE : Nat := 100

/-- Model of `CONSUMER_WORKERS` (main.py line 21). -/
def CONSUMER_WORKERS : Nat := 2

/-- The consumer's batch-fill loop (main.py lines 75-77):
`while len(batch) < CONSUMER_BATCH_SIZE and not queue.empty():
batch.append(queue.get_nowait())`; returns the batch and the remaining
queue. -/
def collectLoop : List Event → List Event → List Event × List Event
  | batch, [] => (batch, [])
  | batch, e :: rest =>
    if batch.length < CONSUMER_BATCH_SIZE
    then collectLoop (batch ++ [e]) rest
    else (batch, e :: rest)

/-- One batch formation by a worker (main.py lines 70-77): suspend until a
first item is available (`none` on an empty queue models the worker
suspending in `await queue.get()`), then drain already-available items up
to the cap. -/
def dequeueBatch (q : List Event) : Option (List Event × List Event) :=
  match q with
  | [] => none
  | e :: rest => some (collectLoop [e] rest)

/-- System state: the `asyncio.Queue` contents in FIFO order, the
committed `processed_events` table, and the shared `StatsTracker`. -/
structure SysState where
  queue : List Event
  store : List Row
  stats : StatsTracker
deriving DecidableEq

/-- Model of `POST /publish` (main.py lines 127-144): enqueue each event of the
(possibly singleton) list, then `stats.inc_received(len(event_list))`. -/
def publish_events (s : SysState) (event_list : List Event) : SysState :=
  { s with queue := s.queue ++ event_list
           stats := inc_received s.stats event_list.length }

/-- The batch a worker obtains from queue `q` when, after taking the first
item, it observes `m` further items as already available (`m` resolves the
scheduling nondeterminism between publishers and the other worker; the
batch is a FIFO chunk of at least 1 and at most `CONSUMER_BATCH_SIZE`
items). Returns the batch and the remaining queue. -/
def formBatch (q : List Event) (m : Nat) : List Event × List Event :=
  match q with
  | [] => ([], [])
  | e :: rest =>
    let extra := min (min (CONSUMER_BATCH_SIZE - 1) m) rest.length
    (e :: rest.take extra, rest.drop extra)

/-- One iteration of the consumer loop (main.py lines 70-112) when the
queue is non-empty: form a batch, call `batch_mark_events_processed`
(whose commit succeeds iff `commitOk`), then
`stats.inc_unique(new_count)` and
`stats.inc_duplicate(len(batch) - new_count)`. On an empty queue the
worker is suspended and the state is unchanged. -/
def stepConsume (s : SysState) (m : Nat) (commitOk : Bool) : SysState :=
  match s.queue with
  | [] => s
  | _ :: _ =>
    let p := formBatch s.queue m
    let r := batch_mark_events_processed s.store p.1 commitOk
    let duplicate_count := p.1.length - r.count
    { queue := p.2
      store := r.store
      stats := inc_duplicate (inc_unique s.stats r.count) duplicate_count }

/-- An observable action of the running system: an ingress `POST /publish`
with its event list, or one consumer iteration (with its scheduling
parameter `m` and commit outcome). -/
inductive Act where
  | publish (events : List Event) : Act
  | consume (m : Nat) (commitOk : Bool) : Act
deriving DecidableEq

/-- Interleaved small-step semantics of the system. -/
def step (s : SysState) : Act → SysState
  | .publish es => publish_events s es
  | .consume m ok => stepConsume s m ok

/-- Run a trace of actions. -/
def run (s : SysState) (acts : List Act) : SysState :=
  acts.foldl step s

/-- Startup state: empty queue, empty table, fresh `StatsTracker` whose
`start_time` is the monotonic instant `t0`. -/
def initState (t0 : ℚ) : SysState :=
  ⟨[], [], ⟨0, 0, 0, t0⟩⟩

/-- Total number of events published over a trace. -/
def totalPublished : List Act → Nat
  | [] => 0
  | .publish es :: acts => es.length + totalPublished acts
  | .consume _ _ :: acts => totalPublished acts

/-- All events published over a trace, in order. -/
def allPublished : List Act → List Event
  | [] => []
  | .publish es :: acts => es ++ allPublished acts
  | .consume _ _ :: acts => allPublished acts

/-- Whether every consumer iteration of the trace commits successfully. -/
def allOk : List Act → Bool
  | [] => true
  | .publish _ :: acts => allOk acts
  | .consume _ ok :: acts => ok && allOk acts

/-- The set of distinct dedup keys of a list of events. -/
def eventKeys (es : List Event) : Finset (String × String) :=
  (es.map Event.unique_key).toFinset

/-- The set of primary keys present in the table. -/
def storeKeys (st : List Row) : Finset (String × String) :=
  (st.map Row.key).toFinset

/-- Number of true duplicate arrivals in a trace: published events beyond
the first per dedup key. -/
def actualDuplicates (acts : List Act) : Nat :=
  totalPublished acts - (eventKeys (allPublished acts)).card

/-! ## Concrete sample data (for witnesses and counterexamples) -/

/-- A sample event on topic `logs`. -/
def evA : Event :=
  ⟨"logs", "e1", "2024-01-01T00:00:00", "svc-a", [("k", JsonVal.str "v1")]⟩

/-- An event with the same dedup key as `evA` but a different payload,
source and timestamp. -/
def evA2 : Event :=
  ⟨"logs", "e1", "2024-01-01T00:00:05", "svc-b", [("k", JsonVal.str "v2")]⟩

/-- A second distinct event on topic `logs`. -/
def evB : Event :=
  ⟨"logs", "e2", "2024-01-01T00:00:01", "svc-a", []⟩

/-- Event `e-20` published under topic `topic-b`. -/
def evTB : Event :=
  ⟨"topic-b", "e-20", "2024-01-01T00:00:02", "svc-a", []⟩

/-- Event `e-20` published under topic `topic-c`. -/
def evTC : Event :=
  ⟨"topic-c", "e-20", "2024-01-01T00:00:03", "svc-a", []⟩

/-- A sample committed table holding `evB` then `evA` (timestamps out of
insertion order). -/
def stC5 : List Row := [eventToRow evB, eventToRow evA]

/-! ## Lemmas about the store primitive -/

theorem hasKey_iff (st : List Row) (k : String × String) :
    hasKey st k = true ↔ k ∈ storeKeys st := by
  simp [hasKey, storeKeys, List.any_eq_true, List.mem_toFinset, List.mem_map,
    beq_iff_eq]

theorem storeKeys_append (st₁ st₂ : List Row) :
    storeKeys (st₁ ++ st₂) = storeKeys st₁ ∪ storeKeys st₂ := by
  ext k
  simp [storeKeys]

theorem storeKeys_map_eventToRow (es : List Event) :
    storeKeys (es.map eventToRow) = eventKeys es := by
  simp [storeKeys, eventKeys, List.map_map]
  rfl

theorem db_executemany_store_append (rows : List Row) :
    ∀ st : List Row, ∃ new, (db_executemany st rows).1 = st ++ new := by
  induction rows with
  | nil => exact fun st => ⟨[], by simp [db_executemany]⟩
  | cons r rows ih =>
    intro st
    cases hk : hasKey st r.key
    · obtain ⟨new, hnew⟩ := ih (st ++ [r])
      refine ⟨[r] ++ new, ?_⟩
      simp only [db_executemany, db_insert_or_ignore, hk]
      simpa using hnew
    · obtain ⟨new, hnew⟩ := ih st
      exact ⟨new, by simpa [db_executemany, db_insert_or_ignore, hk] using hnew⟩

theorem db_executemany_storeKeys (rows : List Row) : ∀ st : List Row,
    storeKeys (db_executemany st rows).1 = storeKeys st ∪ storeKeys rows := by
  induction rows with
  | nil => intro st; ext k; simp [db_executemany, storeKeys]
  | cons r rows ih =>
    intro st
    cases hk : hasKey st r.key
    · simp only [db_executemany, db_insert_or_ignore, hk, Bool.false_eq_true,
        if_false]
      rw [ih (st ++ [r]), storeKeys_append]
      ext k
      simp only [Finset.mem_union, storeKeys, List.mem_toFinset, List.mem_map,
        List.map_cons, List.toFinset_cons, Finset.mem_insert,
        List.mem_singleton]
      aesop
    · have hmem : ∃ a ∈ st, a.key = r.key := by
        simpa [storeKeys] using (hasKey_iff st r.key).1 hk
      simp only [db_executemany, db_insert_or_ignore, hk, if_true]
      rw [ih st]
      ext k
      simp only [Finset.mem_union, storeKeys, List.mem_toFinset, List.mem_map,
        List.map_cons, List.toFinset_cons, Finset.mem_insert]
      constructor
      · rintro (h | h)
        · exact Or.inl h
        · exact Or.inr (Or.inr h)
      · rintro (h | h | h)
        · exact Or.inl h
        · subst h
          exact Or.inl hmem
        · exact Or.inr h

theorem db_executemany_count_le (rows : List Row) :
    ∀ st : List Row, (db_executemany st rows).2 ≤ rows.length := by
  induction rows with
  | nil => intro st; simp [db_executemany]
  | cons r rows ih =>
    intro st
    cases hk : hasKey st r.key
    · simp only [db_executemany, db_insert_or_ignore, hk, Bool.false_eq_true,
        if_false, List.length_cons]
      have := ih (st ++ [r])
      omega
    · simp only [db_executemany, db_insert_or_ignore, hk, if_true,
        List.length_cons]
      have := ih st
      omega

theorem db_executemany_count (rows : List Row) : ∀ st : List Row,
    (db_executemany st rows).2 = (storeKeys rows \ storeKeys st).card := by
  induction rows with
  | nil => intro st; simp [db_executemany, storeKeys]
  | cons r rows ih =>
    intro st
    have hkeys : storeKeys (r :: rows) = insert r.key (storeKeys rows) := by
      ext k; simp [storeKeys]
    cases hk : hasKey st r.key
    · have hnot : r.key ∉ storeKeys st := fun hmem =>
        by simp [(hasKey_iff st r.key).2 hmem] at hk
      simp only [db_executemany, db_insert_or_ignore, hk, Bool.false_eq_true,
        if_false]
      rw [ih (st ++ [r]), hkeys, storeKeys_append]
      have h1 : insert r.key (storeKeys rows) \ storeKeys st =
          insert r.key (storeKeys rows \ storeKeys st) := by
        ext k
        simp only [Finset.mem_sdiff, Finset.mem_insert]
        constructor
        · rintro ⟨h | h, hns⟩
          · exact Or.inl h
          · exact Or.inr ⟨h, hns⟩
        · rintro (rfl | ⟨h, hns⟩)
          · exact ⟨Or.inl rfl, hnot⟩
          · exact ⟨Or.inr h, hns⟩
      have h2 : storeKeys rows \ (storeKeys st ∪ storeKeys [r]) =
          (storeKeys rows \ storeKeys st).erase r.key := by
        ext k
        simp only [Finset.mem_sdiff, Finset.mem_union, Finset.mem_erase,
          storeKeys, List.map_cons, List.map_nil, List.toFinset_cons,
          List.toFinset_nil, Finset.mem_insert, Finset.not_mem_empty,
          List.mem_toFinset, List.mem_map]
        aesop
      rw [h1, h2]
      by_cases hka : r.key ∈ storeKeys rows \ storeKeys st
      · rw [Finset.card_insert_of_mem hka, Finset.card_erase_of_mem hka]
        have := Finset.card_pos.2 ⟨r.key, hka⟩
        omega
      · rw [Finset.card_insert_of_not_mem hka, Finset.erase_eq_of_not_mem hka]
        omega
    · have hmem : r.key ∈ storeKeys st := (hasKey_iff st r.key).1 hk
      have hset : insert r.key (storeKeys rows) \ storeKeys st =
          storeKeys rows \ storeKeys st := by
        ext k
        simp only [Finset.mem_sdiff, Finset.mem_insert]
        constructor
        · rintro ⟨rfl | h, hns⟩
          · exact absurd hmem hns
          · exact ⟨h, hns⟩
        · rintro ⟨h, hns⟩
          exact ⟨Or.inr h, hns⟩
      simp only [db_executemany, db_insert_or_ignore, hk, if_true]
      rw [ih st, hkeys, hset]
      omega

theorem db_executemany_nodup (rows : List Row) : ∀ st : List Row,
    (st.map Row.key).Nodup → ((db_executemany st rows).1.map Row.key).Nodup := by
  induction rows with
  | nil => intro st h; simpa [db_executemany] using h
  | cons r rows ih =>
    intro st h
    cases hk : hasKey st r.key
    · have hnot : r.key ∉ storeKeys st := fun hmem =>
        by simp [(hasKey_iff st r.key).2 hmem] at hk
      simp only [db_executemany, db_insert_or_ignore, hk, Bool.false_eq_true,
        if_false]
      refine ih (st ++ [r]) ?_
      simp only [List.map_append, List.map_cons, List.map_nil,
        List.nodup_append, List.nodup_cons, List.nodup_nil]
      refine ⟨h, by simp, ?_⟩
      intro k hkin
      simp only [List.mem_singleton]
      intro hkeq
      apply hnot
      subst hkeq
      simpa [storeKeys, List.mem_toFinset] using hkin
    · simp only [db_executemany, db_insert_or_ignore, hk, if_true]
      exact ih st h

/-! ## Lemmas about batch commit and batch formation -/

theorem eventKeys_append (l₁ l₂ : List Event) :
    eventKeys (l₁ ++ l₂) = eventKeys l₁ ∪ eventKeys l₂ := by
  ext k
  simp [eventKeys]

theorem batch_mark_count_le (st : List Row) (es : List Event) (ok : Bool) :
    (batch_mark_events_processed st es ok).count ≤ es.length := by
  cases es with
  | nil => simp [batch_mark_events_processed]
  | cons e es' =>
    cases ok
    · simp [batch_mark_events_processed]
    · simp only [batch_mark_events_processed, List.map_cons, List.isEmpty_cons,
        Bool.false_eq_true, if_false, if_true]
      have := db_executemany_count_le ((e :: es').map eventToRow) st
      simpa using this

theorem batch_mark_store_append (st : List Row) (es : List Event) (ok : Bool) :
    ∃ new, (batch_mark_events_processed st es ok).store = st ++ new := by
  cases es with
  | nil => exact ⟨[], by simp [batch_mark_events_processed]⟩
  | cons e es' =>
    cases ok
    · exact ⟨[], by simp [batch_mark_events_processed]⟩
    · simp only [batch_mark_events_processed, List.map_cons, List.isEmpty_cons,
        Bool.false_eq_true, if_false, if_true]
      exact db_executemany_store_append _ st

theorem batch_mark_true_storeKeys (st : List Row) (es : List Event) :
    storeKeys (batch_mark_events_processed st es true).store
      = storeKeys st ∪ eventKeys es := by
  cases es with
  | nil =>
    simp only [batch_mark_events_processed, List.map_nil, List.isEmpty_nil,
      if_true]
    ext k
    simp [eventKeys]
  | cons e es' =>
    simp only [batch_mark_events_processed, List.map_cons, List.isEmpty_cons,
      Bool.false_eq_true, if_false, if_true]
    rw [show (eventToRow e :: List.map eventToRow es')
        = (e :: es').map eventToRow by simp,
      db_executemany_storeKeys, storeKeys_map_eventToRow]

theorem batch_mark_true_count (st : List Row) (es : List Event) :
    (batch_mark_events_processed st es true).count
      = (eventKeys es \ storeKeys st).card := by
  cases es with
  | nil =>
    simp only [batch_mark_events_processed, List.map_nil, List.isEmpty_nil,
      if_true]
    simp [eventKeys]
  | cons e es' =>
    simp only [batch_mark_events_processed, List.map_cons, List.isEmpty_cons,
      Bool.false_eq_true, if_false, if_true]
    rw [show (eventToRow e :: List.map eventToRow es')
        = (e :: es').map eventToRow by simp,
      db_executemany_count, storeKeys_map_eventToRow]

theorem batch_mark_false (st : List Row) (es : List Event) (h : es ≠ []) :
    batch_mark_events_processed st es false = ⟨st, 0, true⟩ := by
  cases es with
  | nil => exact absurd rfl h
  | cons e es' =>
    simp [batch_mark_events_processed]

theorem batch_mark_nodup (st : List Row) (es : List Event) (ok : Bool)
    (h : (st.map Row.key).Nodup) :
    ((batch_mark_events_processed st es ok).store.map Row.key).Nodup := by
  cases es with
  | nil => simpa [batch_mark_events_processed] using h
  | cons e es' =>
    cases ok
    · simpa [batch_mark_events_processed] using h
    · simp only [batch_mark_events_processed, List.map_cons, List.isEmpty_cons,
        Bool.false_eq_true, if_false, if_true]
      exact db_executemany_nodup _ st h

theorem formBatch_append (q : List Event) (m : Nat) :
    (formBatch q m).1 ++ (formBatch q m).2 = q := by
  cases q with
  | nil => simp [formBatch]
  | cons e rest => simp [formBatch]

theorem formBatch_length (q : List Event) (m : Nat) (h : q ≠ []) :
    1 ≤ (formBatch q m).1.length
      ∧ (formBatch q m).1.length ≤ CONSUMER_BATCH_SIZE := by
  cases q with
  | nil => exact absurd rfl h
  | cons e rest =>
    simp only [formBatch, List.length_cons, List.length_take]
    constructor
    · omega
    · simp only [CONSUMER_BATCH_SIZE]
      omega

/-! ## Lemmas about the consumer step and system runs -/

theorem run_cons (s : SysState) (a : Act) (acts : List Act) :
    run s (a :: acts) = run (step s a) acts := rfl

theorem stepConsume_received (s : SysState) (m : Nat) (ok : Bool) :
    (stepConsume s m ok).stats.received = s.stats.received := by
  cases hq : s.queue with
  | nil => simp [stepConsume, hq]
  | cons e rest => simp [stepConsume, hq, inc_unique, inc_duplicate]

theorem stepConsume_counts (s : SysState) (m : Nat) (ok : Bool) :
    (stepConsume s m ok).stats.unique_processed
        + (stepConsume s m ok).stats.duplicate_dropped
        + (stepConsume s m ok).queue.length
      = s.stats.unique_processed + s.stats.duplicate_dropped
        + s.queue.length := by
  cases hq : s.queue with
  | nil => simp [stepConsume, hq]
  | cons e rest =>
    simp only [stepConsume, hq, inc_unique, inc_duplicate]
    have hle := batch_mark_count_le s.store (formBatch (e :: rest) m).1 ok
    have hlen : (formBatch (e :: rest) m).1.length
        + (formBatch (e :: rest) m).2.length = (e :: rest).length := by
      rw [← List.length_append, formBatch_append]
    simp only [List.length_cons] at hlen
    simp only [List.length_cons]
    omega

theorem run_received (acts : List Act) : ∀ s : SysState,
    (run s acts).stats.received
      = s.stats.received + totalPublished acts := by
  induction acts with
  | nil => intro s; simp [run, totalPublished]
  | cons a acts ih =>
    intro s
    rw [run_cons, ih]
    cases a with
    | publish es =>
      simp [step, publish_events, inc_received, totalPublished]
      omega
    | consume m ok =>
      simp [step, stepConsume_received, totalPublished]

theorem run_counts (acts : List Act) : ∀ s : SysState,
    (run s acts).stats.unique_processed
        + (run s acts).stats.duplicate_dropped
        + (run s acts).queue.length
      = s.stats.unique_processed + s.stats.duplicate_dropped
        + s.queue.length + totalPublished acts := by
  induction acts with
  | nil => intro s; simp [run, totalPublished]
  | cons a acts ih =>
    intro s
    rw [run_cons, ih]
    cases a with
    | publish es =>
      simp [step, publish_events, inc_received, totalPublished]
      omega
    | consume m ok =>
      have := stepConsume_counts s m ok
      simp only [step, totalPublished]
      omega

theorem stepConsume_store (s : SysState) (m : Nat) (ok : Bool) :
    ∃ new, (stepConsume s m ok).store = s.store ++ new := by
  cases hq : s.queue with
  | nil => exact ⟨[], by simp [stepConsume, hq]⟩
  | cons e rest =>
    obtain ⟨new, hnew⟩ :=
      batch_mark_store_append s.store (formBatch (e :: rest) m).1 ok
    exact ⟨new, by simpa [stepConsume, hq] using hnew⟩

theorem run_store_mono (acts : List Act) : ∀ (s : SysState) (r : Row),
    r ∈ s.store → r ∈ (run s acts).store := by
  induction acts with
  | nil => intro s r h; simpa [run] using h
  | cons a acts ih =>
    intro s r h
    rw [run_cons]
    refine ih (step s a) r ?_
    cases a with
    | publish es => simpa [step, publish_events] using h
    | consume m ok =>
      obtain ⟨new, hnew⟩ := stepConsume_store s m ok
      simp only [step, hnew, List.mem_append]
      exact Or.inl h

theorem run_nodup (acts : List Act) : ∀ s : SysState,
    (s.store.map Row.key).Nodup → ((run s acts).store.map Row.key).Nodup := by
  induction acts with
  | nil => intro s h; simpa [run] using h
  | cons a acts ih =>
    intro s h
    rw [run_cons]
    refine ih (step s a) ?_
    cases a with
    | publish es => simpa [step, publish_events] using h
    | consume m ok =>
      cases hq : s.queue with
      | nil => simpa [step, stepConsume, hq] using h
      | cons e rest =>
        have := batch_mark_nodup s.store (formBatch (e :: rest) m).1 ok h
        simpa [step, stepConsume, hq] using this

theorem run_unique_inv (acts : List Act) : ∀ s : SysState,
    allOk acts = true →
    s.stats.unique_processed = (storeKeys s.store).card →
    (run s acts).stats.unique_processed
        = (storeKeys (run s acts).store).card
      ∧ storeKeys (run s acts).store ∪ eventKeys (run s acts).queue
          = storeKeys s.store ∪ eventKeys s.queue
            ∪ eventKeys (allPublished acts) := by
  induction acts with
  | nil =>
    intro s _ hinv
    refine ⟨by simpa [run] using hinv, ?_⟩
    simp only [run, List.foldl, allPublished]
    ext k
    simp [eventKeys]
  | cons a acts ih =>
    intro s hok hinv
    cases a with
    | publish es =>
      have hok' : allOk acts = true := by simpa [allOk] using hok
      have h1 : (publish_events s es).stats.unique_processed
          = (storeKeys (publish_events s es).store).card := by
        simpa [publish_events, inc_received] using hinv
      obtain ⟨hu, hkeys⟩ := ih (publish_events s es) hok' h1
      rw [run_cons]
      simp only [step]
      refine ⟨hu, ?_⟩
      rw [hkeys]
      simp only [publish_events, eventKeys_append, allPublished]
      ext k
      simp only [Finset.mem_union]
      tauto
    | consume m ok =>
      have hok2 : ok = true ∧ allOk acts = true := by
        simpa [allOk, Bool.and_eq_true] using hok
      obtain ⟨rfl, hok'⟩ := hok2
      cases hq : s.queue with
      | nil =>
        have hstep : step s (Act.consume m true) = s := by
          simp [step, stepConsume, hq]
        rw [run_cons, hstep]
        obtain ⟨hu, hkeys⟩ := ih s hok' hinv
        exact ⟨hu, by simpa [allPublished, hq] using hkeys⟩
      | cons e rest =>
        have hbatchne : (formBatch (e :: rest) m).1 ≠ [] := by
          simp [formBatch]
        have hstore : (step s (Act.consume m true)).store
            = (batch_mark_events_processed s.store
                (formBatch (e :: rest) m).1 true).store := by
          simp [step, stepConsume, hq]
        have hqueue : (step s (Act.consume m true)).queue
            = (formBatch (e :: rest) m).2 := by
          simp [step, stepConsume, hq]
        have hstats : (step s (Act.consume m true)).stats.unique_processed
            = s.stats.unique_processed
              + (batch_mark_events_processed s.store
                  (formBatch (e :: rest) m).1 true).count := by
          simp [step, stepConsume, hq, inc_unique, inc_duplicate]
        have h1 : (step s (Act.consume m true)).stats.unique_processed
            = (storeKeys (step s (Act.consume m true)).store).card := by
          rw [hstats, hstore, hinv, batch_mark_true_count,
            batch_mark_true_storeKeys]
          rw [Finset.union_comm, ← Finset.card_sdiff_add_card]
          omega
        have h2 : storeKeys (step s (Act.consume m true)).store
              ∪ eventKeys (step s (Act.consume m true)).queue
            = storeKeys s.store ∪ eventKeys s.queue := by
          rw [hstore, hqueue, batch_mark_true_storeKeys]
          have hsplit : eventKeys (formBatch (e :: rest) m).1
              ∪ eventKeys (formBatch (e :: rest) m).2
              = eventKeys s.queue := by
            rw [← eventKeys_append, formBatch_append, hq]
          rw [Finset.union_assoc, hsplit]
        obtain ⟨hu, hkeys⟩ := ih (step s (Act.consume m true)) hok' h1
        rw [run_cons]
        refine ⟨hu, ?_⟩
        rw [hq] at h2
        rw [hkeys, h2]
        simp [allPublished]

/-! ## Further helper lemmas -/

theorem collectLoop_eq (q : List Event) : ∀ batch : List Event,
    collectLoop batch q
      = (batch ++ q.take (CONSUMER_BATCH_SIZE - batch.length),
         q.drop (CONSUMER_BATCH_SIZE - batch.length)) := by
  induction q with
  | nil => intro batch; simp [collectLoop]
  | cons e rest ih =>
    intro batch
    by_cases h : batch.length < CONSUMER_BATCH_SIZE
    · simp only [collectLoop, if_pos h]
      rw [ih (batch ++ [e])]
      have hn : CONSUMER_BATCH_SIZE - batch.length
          = (CONSUMER_BATCH_SIZE - (batch ++ [e]).length) + 1 := by
        simp only [List.length_append, List.length_cons, List.length_nil]
        omega
      rw [hn]
      simp [List.take_succ_cons, List.drop_succ_cons]
    · simp only [collectLoop, if_neg h]
      have hz : CONSUMER_BATCH_SIZE - batch.length = 0 := by omega
      simp [hz]

theorem mem_get_events_by_topic (st : List Row) (r : Row) (t : String)
    (hr : r ∈ st) (ht : r.topic = t) :
    rowToDict r ∈ get_events_by_topic st t := by
  unfold get_events_by_topic
  refine List.mem_map_of_mem rowToDict ?_
  rw [List.mem_insertionSort]
  simp [List.mem_filter, hr, ht]

theorem hasKey_append_single (st : List Row) (x : Row) (k : String × String) :
    hasKey (st ++ [x]) k = (hasKey st k || (x.key == k)) := by
  simp [hasKey, List.any_append]

theorem db_executemany_mem_fresh (rows₁ : List Row) :
    ∀ (st : List Row) (r : Row) (rows₂ : List Row),
    hasKey st r.key = false →
    r.key ∉ rows₁.map Row.key →
    r ∈ (db_executemany st (rows₁ ++ r :: rows₂)).1 := by
  induction rows₁ with
  | nil =>
    intro st r rows₂ h _
    simp only [List.nil_append, db_executemany, db_insert_or_ignore, h,
      Bool.false_eq_true, if_false]
    obtain ⟨new, hnew⟩ := db_executemany_store_append rows₂ (st ++ [r])
    rw [hnew]
    simp
  | cons r₁ rows₁ ih =>
    intro st r rows₂ h hnot
    have hne : r.key ≠ r₁.key := by
      intro heq
      exact hnot (by simp [heq])
    have hnot' : r.key ∉ rows₁.map Row.key := by
      intro hmem
      exact hnot (by simp [hmem])
    cases hk : hasKey st r₁.key
    · simp only [List.cons_append, db_executemany, db_insert_or_ignore, hk,
        Bool.false_eq_true, if_false]
      refine ih (st ++ [r₁]) r rows₂ ?_ hnot'
      rw [hasKey_append_single, h]
      simp [beq_iff_eq]
      exact fun hxy => hne hxy.symm
    · simp only [List.cons_append, db_executemany, db_insert_or_ignore, hk,
        if_true]
      exact ih st r rows₂ h hnot'

theorem round_half_even_nonneg (q : ℚ) (h : 0 ≤ q) : 0 ≤ round_half_even q := by
  unfold round_half_even
  have hf : (0 : ℤ) ≤ ⌊q⌋ := Int.floor_nonneg.2 h
  split_ifs <;> omega

theorem py_round_nonneg (q : ℚ) (n : Nat) (h : 0 ≤ q) : 0 ≤ py_round q n := by
  unfold py_round
  apply div_nonneg
  · have h10 : (0 : ℚ) ≤ 10 ^ n := by positivity
    exact_mod_cast round_half_even_nonneg _ (mul_nonneg h h10)
  · positivity

/-! ## Claim theorems -/

/-- C2: for every batch of events and every prior store state,
`batch_mark_events_processed` applies the whole batch atomically as an
append of new rows, keyed by `(topic, event_id)`, and returns exactly the
number of distinct keys of the batch not already present in the store
(an already-present key, or a key repeated later in the batch, contributes
0), the count coming from the row-change accounting. -/
theorem claim_C2_batch_upsert_count (st : List Row) (es : List Event) :
    (batch_mark_events_processed st es true).count
        = (eventKeys es \ storeKeys st).card
    ∧ (∃ new, (batch_mark_events_processed st es true).store = st ++ new)
    ∧ storeKeys (batch_mark_events_processed st es true).store
        = storeKeys st ∪ eventKeys es :=
  ⟨batch_mark_true_count st es, batch_mark_store_append st es true,
    batch_mark_true_storeKeys st es⟩

/-- C5: `get_events_by_topic` returns exactly the committed rows whose
topic equals the argument (as dictionaries), ordered by timestamp
ascending; every returned record has the requested topic and comes from a
committed row of the store. -/
theorem claim_C5_list_by_topic (st : List Row) (t : String) :
    (get_events_by_topic st t).Perm
        ((st.filter (fun r => r.topic == t)).map rowToDict)
    ∧ List.Sorted (fun a b : EventDict => a.timestamp ≤ b.timestamp)
        (get_events_by_topic st t)
    ∧ (∀ d ∈ get_events_by_topic st t,
        d.topic = t ∧ ∃ r ∈ st, r.topic = t ∧ rowToDict r = d) := by
  refine ⟨?_, ?_, ?_⟩
  · exact (List.perm_insertionSort _ _).map rowToDict
  · have hs : List.Sorted (fun a b : Row => a.timestamp ≤ b.timestamp)
        (List.insertionSort (fun a b : Row => a.timestamp ≤ b.timestamp)
          (st.filter (fun r => r.topic == t))) :=
      List.sorted_insertionSort _ _
    exact List.Pairwise.map rowToDict (fun a b h => h) hs
  · intro d hd
    unfold get_events_by_topic at hd
    obtain ⟨r, hr, rfl⟩ := List.mem_map.1 hd
    rw [List.mem_insertionSort, List.mem_filter] at hr
    obtain ⟨hrst, hrt⟩ := hr
    have ht : r.topic = t := by simpa [beq_iff_eq] using hrt
    exact ⟨ht, r, hrst, ht, rfl⟩

/-- C5 witness: on the two-row store `stC5` (rows for `evB` and `evA`),
the record of `evA` is returned for topic `logs` with topic `logs`. -/
theorem claim_C5_list_by_topic_witness :
    rowToDict (eventToRow evA) ∈ get_events_by_topic stC5 "logs"
    ∧ (rowToDict (eventToRow evA)).topic = "logs" := by
  have hmem : rowToDict (eventToRow evA) ∈ get_events_by_topic stC5 "logs" :=
    mem_get_events_by_topic stC5 (eventToRow evA) "logs" (by decide) (by decide)
  exact ⟨hmem, ((claim_C5_list_by_topic stC5 "logs").2.2 _ hmem).1⟩

/-- C7 counterexample: with counters `received = 1, unique_processed = 1,
duplicate_dropped = 0`, `start_time = 0` and `now = 3` (uptime 3), the
returned throughput is `round(1/3, 4) = 0.3333`, not the exact quotient
`1/3` the claim demands. -/
theorem claim_C7_stats_counterexample :
    (get_stats ⟨1, 1, 0, 0⟩ 3).throughput
      ≠ (((⟨1, 1, 0, 0⟩ : StatsTracker).unique_processed : ℚ))
          / (3 - (⟨1, 1, 0, 0⟩ : StatsTracker).start_time) := by
  have hval : (get_stats ⟨1, 1, 0, 0⟩ 3).throughput = 3333 / 10000 := by
    simp only [get_stats, py_round, round_half_even]
    norm_num [Int.floor_eq_iff]
  rw [hval]
  norm_num

/-- C7 (amended): `get_stats` reports the counters unchanged; throughput
is `unique_processed/uptime` rounded half-to-even to 4 decimal places when
`uptime > 0` and 0 when `uptime = 0`; duplicate_rate is
`duplicate_dropped/received` rounded to 4 decimal places when
`received > 0` and 0 when `received = 0`; and, under a monotonic clock
(`start_time ≤ now`), no returned value is negative. -/
theorem claim_C7_stats_derived (s : StatsTracker) (now : ℚ)
    (hmono : s.start_time ≤ now) :
    (get_stats s now).received = s.received
    ∧ (get_stats s now).unique_processed = s.unique_processed
    ∧ (get_stats s now).duplicate_dropped = s.duplicate_dropped
    ∧ (0 < now - s.start_time →
        (get_stats s now).throughput
          = py_round ((s.unique_processed : ℚ) / (now - s.start_time)) 4)
    ∧ (now - s.start_time = 0 → (get_stats s now).throughput = 0)
    ∧ (s.received = 0 → (get_stats s now).duplicate_rate = 0)
    ∧ (0 < s.received →
        (get_stats s now).duplicate_rate
          = py_round ((s.duplicate_dropped : ℚ) / (s.received : ℚ)) 4)
    ∧ 0 ≤ (get_stats s now).uptime_seconds
    ∧ 0 ≤ (get_stats s now).throughput
    ∧ 0 ≤ (get_stats s now).duplicate_rate := by
  have huptime : (0 : ℚ) ≤ now - s.start_time := by linarith
  refine ⟨rfl, rfl, rfl, ?_, ?_, ?_, ?_, ?_, ?_, ?_⟩
  · intro h
    simp [get_stats, h]
  · intro h
    simp [get_stats, h]
  · intro h
    simp [get_stats, h]
  · intro h
    have h' : 0 < s.received := h
    simp only [get_stats]
    rw [if_pos (by exact_mod_cast h')]
  · exact py_round_nonneg _ _ huptime
  · simp only [get_stats]
    split_ifs with h
    · exact py_round_nonneg _ _ (div_nonneg (by positivity) (le_of_lt h))
    · exact le_refl 0
  · simp only [get_stats]
    split_ifs with h
    · exact py_round_nonneg _ _ (div_nonneg (by positivity) (by positivity))
    · exact le_refl 0

/-- C7 witness: at `received = 2, unique_processed = 1,
duplicate_dropped = 1, start_time = 0, now = 2`, the amended claim holds
and yields `throughput = round(1/2, 4)` and
`duplicate_rate = round(1/2, 4)`. -/
theorem claim_C7_stats_derived_witness :
    ((0 : ℚ) ≤ 2 - 0)
    ∧ (get_stats ⟨2, 1, 1, 0⟩ 2).throughput = py_round ((1 : ℚ) / 2) 4
    ∧ 0 ≤ (get_stats ⟨2, 1, 1, 0⟩ 2).duplicate_rate := by
  have h := claim_C7_stats_derived ⟨2, 1, 1, 0⟩ 2 (by norm_num)
  refine ⟨by norm_num, ?_, h.2.2.2.2.2.2.2.2.2⟩
  have := h.2.2.2.1 (by norm_num)
  simpa using this

/-- C9: a worker's batch formation takes the first queued item (suspending
only when the queue is empty), then drains only already-available items in
FIFO order up to the fixed cap `CONSUMER_BATCH_SIZE = 100`: the batch is
the FIFO front of the queue, of size between 1 and 100, and together with
the remaining queue reconstitutes the original queue; the same bounds hold
for every interleaving-resolved batch `formBatch q m`. -/
theorem claim_C9_dequeue_batch (q : List Event) (h : q ≠ []) :
    dequeueBatch q
        = some (q.take CONSUMER_BATCH_SIZE, q.drop CONSUMER_BATCH_SIZE)
    ∧ (∀ batch rest, dequeueBatch q = some (batch, rest) →
        batch ++ rest = q ∧ 1 ≤ batch.length
          ∧ batch.length ≤ CONSUMER_BATCH_SIZE)
    ∧ CONSUMER_BATCH_SIZE = 100
    ∧ (∀ m, (formBatch q m).1 ++ (formBatch q m).2 = q
        ∧ 1 ≤ (formBatch q m).1.length
        ∧ (formBatch q m).1.length ≤ CONSUMER_BATCH_SIZE) := by
  obtain ⟨e, rest, rfl⟩ := List.exists_cons_of_ne_nil h
  have hdq : dequeueBatch (e :: rest)
      = some ((e :: rest).take CONSUMER_BATCH_SIZE,
              (e :: rest).drop CONSUMER_BATCH_SIZE) := by
    simp only [dequeueBatch, collectLoop_eq]
    rw [show CONSUMER_BATCH_SIZE = 99 + 1 from rfl]
    simp [List.take_succ_cons, List.drop_succ_cons]
  refine ⟨hdq, ?_, rfl, ?_⟩
  · intro batch rest' heq
    rw [hdq, Option.some.injEq, Prod.mk.injEq] at heq
    obtain ⟨h1, h2⟩ := heq
    subst h1
    subst h2
    refine ⟨List.take_append_drop _ _, ?_, ?_⟩
    · simp only [List.length_take, List.length_cons, CONSUMER_BATCH_SIZE]
      omega
    · simp only [List.length_take]
      omega
  · intro m
    exact ⟨formBatch_append _ m, (formBatch_length _ m (by simp)).1,
      (formBatch_length _ m (by simp)).2⟩

/-- C1: over any trace, `received` equals the number of published events;
once the queue is fully drained, `unique_processed + duplicate_dropped`
also equals that number; each publish call adds exactly its event count to
`received` (and enqueues exactly those events), and each processed batch
adds exactly its size to `unique_processed + duplicate_dropped`. -/
theorem claim_C1_counter_invariant (t0 : ℚ) (acts : List Act) :
    (run (initState t0) acts).stats.received = totalPublished acts
    ∧ ((run (initState t0) acts).queue = [] →
        (run (initState t0) acts).stats.unique_processed
          + (run (initState t0) acts).stats.duplicate_dropped
          = totalPublished acts)
    ∧ (∀ (s : SysState) (es : List Event),
        (publish_events s es).stats.received = s.stats.received + es.length
          ∧ (publish_events s es).queue = s.queue ++ es)
    ∧ (∀ (s : SysState) (m : Nat) (ok : Bool), s.queue ≠ [] →
        (stepConsume s m ok).stats.unique_processed
          + (stepConsume s m ok).stats.duplicate_dropped
          = s.stats.unique_processed + s.stats.duplicate_dropped
            + (formBatch s.queue m).1.length) := by
  refine ⟨?_, ?_, ?_, ?_⟩
  · have := run_received acts (initState t0)
    simpa [initState] using this
  · intro hq
    have hc := run_counts acts (initState t0)
    rw [hq] at hc
    have h0u : (initState t0).stats.unique_processed = 0 := rfl
    have h0d : (initState t0).stats.duplicate_dropped = 0 := rfl
    have h0q : (initState t0).queue.length = 0 := rfl
    simp only [List.length_nil] at hc
    omega
  · intro s es
    exact ⟨by simp [publish_events, inc_received], by simp [publish_events]⟩
  · intro s m ok hq
    obtain ⟨e, rest, hrest⟩ := List.exists_cons_of_ne_nil hq
    have hle := batch_mark_count_le s.store (formBatch s.queue m).1 ok
    rw [hrest] at hle ⊢
    simp only [stepConsume, hrest, inc_unique, inc_duplicate]
    omega

/-- C1 witness: publishing three events (one a duplicate) and draining
them in one committed batch gives `received = 3` and
`unique_processed + duplicate_dropped = 3`. -/
theorem claim_C1_counter_invariant_witness :
    (run (initState 0)
        [Act.publish [evA, evA2, evB], Act.consume 5 true]).queue = []
    ∧ (run (initState 0)
        [Act.publish [evA, evA2, evB], Act.consume 5 true]).stats.received = 3
    ∧ (run (initState 0)
          [Act.publish [evA, evA2, evB], Act.consume 5 true]).stats.unique_processed
        + (run (initState 0)
          [Act.publish [evA, evA2, evB], Act.consume 5 true]).stats.duplicate_dropped
        = 3 := by
  have h := claim_C1_counter_invariant 0
    [Act.publish [evA, evA2, evB], Act.consume 5 true]
  have hq : (run (initState 0)
      [Act.publish [evA, evA2, evB], Act.consume 5 true]).queue = [] := by
    decide
  have ht : totalPublished
      [Act.publish [evA, evA2, evB], Act.consume 5 true] = 3 := by decide
  exact ⟨hq, ht ▸ h.1, ht ▸ h.2.1 hq⟩

/-- C3: in every reachable state the store holds at most one row per
`(topic, event_id)`; a committed row (payload included) is never removed
or overwritten by later activity; a later event whose key already exists
is discarded leaving the store unchanged; and equal event ids under
different topics have different keys and are stored as two separate
records. -/
theorem claim_C3_first_write_wins (t0 : ℚ) (acts : List Act) :
    ((run (initState t0) acts).store.map Row.key).Nodup
    ∧ (∀ (acts' : List Act) (r : Row),
        r ∈ (run (initState t0) acts).store →
        r ∈ (run (run (initState t0) acts) acts').store)
    ∧ (∀ (e : Event) (ok : Bool),
        hasKey (run (initState t0) acts).store e.unique_key = true →
        (batch_mark_events_processed (run (initState t0) acts).store [e]
            ok).store
          = (run (initState t0) acts).store)
    ∧ (∀ e₁ e₂ : Event, e₁.event_id = e₂.event_id → e₁.topic ≠ e₂.topic →
        e₁.unique_key ≠ e₂.unique_key
        ∧ (batch_mark_events_processed [] [e₁, e₂] true).store
            = [eventToRow e₁, eventToRow e₂]) := by
  refine ⟨?_, ?_, ?_, ?_⟩
  · exact run_nodup acts (initState t0) (by simp [initState])
  · intro acts' r hr
    exact run_store_mono acts' _ r hr
  · intro e ok hk
    cases ok
    · rw [batch_mark_false _ [e] (by simp)]
    · have hk' : hasKey (run (initState t0) acts).store (eventToRow e).key
          = true := hk
      simp only [batch_mark_events_processed, List.map_cons, List.map_nil,
        List.isEmpty_cons, Bool.false_eq_true, if_false, if_true,
        db_executemany, db_insert_or_ignore, hk']
  · intro e₁ e₂ hid ht
    have hkey : e₁.unique_key ≠ e₂.unique_key := by
      simp only [Event.unique_key, ne_eq, Prod.mk.injEq, not_and]
      intro hteq
      exact absurd hteq ht
    refine ⟨hkey, ?_⟩
    have h1 : hasKey [] (eventToRow e₁).key = false := rfl
    have h2 : hasKey [eventToRow e₁] (eventToRow e₂).key = false := by
      simp only [hasKey, List.any_cons, List.any_nil, Bool.or_false,
        beq_eq_false_iff_ne, ne_eq]
      intro hkeq
      apply hkey
      have : (eventToRow e₁).key = (eventToRow e₂).key := hkeq
      exact this
    simp only [batch_mark_events_processed, List.map_cons, List.map_nil,
      List.isEmpty_cons, Bool.false_eq_true, if_false, if_true,
      db_executemany, db_insert_or_ignore, List.nil_append, h1, h2]
    rfl

/-- C3 witness: after committing `evA`, a later event with the same key
(`evA2`) is discarded whether its commit succeeds or fails, and the two
`e-20` events under `topic-b`/`topic-c` have distinct keys and are stored
as two records. -/
theorem claim_C3_first_write_wins_witness :
    (batch_mark_events_processed
        (run (initState 0) [Act.publish [evA], Act.consume 0 true]).store
        [evA2] true).store
      = (run (initState 0) [Act.publish [evA], Act.consume 0 true]).store
    ∧ evTB.unique_key ≠ evTC.unique_key
    ∧ (batch_mark_events_processed [] [evTB, evTC] true).store
        = [eventToRow evTB, eventToRow evTC] := by
  have h := claim_C3_first_write_wins 0 [Act.publish [evA], Act.consume 0 true]
  have hk : hasKey
      (run (initState 0) [Act.publish [evA], Act.consume 0 true]).store
      evA2.unique_key = true := by decide
  have hcross := h.2.2.2 evTB evTC (by decide) (by decide)
  exact ⟨h.2.2.1 evA2 true hk, hcross.1, hcross.2⟩

/-- C4: over any trace whose batch commits all succeed and whose queue is
fully drained, `unique_processed` equals the number of distinct
`(topic, event_id)` keys among all published events, and
`duplicate_dropped` equals the number of published events beyond the
first per key. -/
theorem claim_C4_unique_equals_distinct (t0 : ℚ) (acts : List Act)
    (hok : allOk acts = true)
    (hdrained : (run (initState t0) acts).queue = []) :
    (run (initState t0) acts).stats.unique_processed
        = (eventKeys (allPublished acts)).card
    ∧ (run (initState t0) acts).stats.duplicate_dropped
        = totalPublished acts - (eventKeys (allPublished acts)).card := by
  obtain ⟨hu, hkeys⟩ := run_unique_inv acts (initState t0) hok
    (by simp [initState, storeKeys])
  rw [hdrained] at hkeys
  have hstore : storeKeys (run (initState t0) acts).store
      = eventKeys (allPublished acts) := by
    simpa [initState, storeKeys, eventKeys] using hkeys
  refine ⟨hu.trans (congrArg Finset.card hstore), ?_⟩
  have hc := run_counts acts (initState t0)
  rw [hdrained] at hc
  have h0u : (initState t0).stats.unique_processed = 0 := rfl
  have h0d : (initState t0).stats.duplicate_dropped = 0 := rfl
  have h0q : (initState t0).queue.length = 0 := rfl
  simp only [List.length_nil] at hc
  have hr := hu.trans (congrArg Finset.card hstore)
  omega

/-- C4 witness: publishing `evA, evA2, evB` (two distinct keys) and
draining them with a successful commit yields `unique_processed = 2` and
`duplicate_dropped = 1`. -/
theorem claim_C4_unique_equals_distinct_witness :
    (run (initState 0)
        [Act.publish [evA, evA2, evB], Act.consume 9 true]).stats.unique_processed
      = 2
    ∧ (run (initState 0)
        [Act.publish [evA, evA2, evB], Act.consume 9 true]).stats.duplicate_dropped
      = 1 := by
  have h := claim_C4_unique_equals_distinct 0
    [Act.publish [evA, evA2, evB], Act.consume 9 true] (by decide) (by decide)
  have hcard : (eventKeys (allPublished
      [Act.publish [evA, evA2, evB], Act.consume 9 true])).card = 2 := by
    decide
  have htot : totalPublished
      [Act.publish [evA, evA2, evB], Act.consume 9 true] = 3 := by decide
  exact ⟨hcard ▸ h.1, by rw [h.2, htot, hcard]⟩

/-- C8: when the commit of a batch fails, the error is logged, the store
is left without the batch's rows, the batch is removed from the queue and
never requeued, `unique_processed` and `received` are untouched, and the
worker loop goes on: the next successful iteration processes the next
batch against the unchanged store. -/
theorem claim_C8_persistence_failure (s : SysState) (m : Nat)
    (h : s.queue ≠ []) :
    (batch_mark_events_processed s.store (formBatch s.queue m).1
        false).errorLogged = true
    ∧ (batch_mark_events_processed s.store (formBatch s.queue m).1
        false).store = s.store
    ∧ (stepConsume s m false).store = s.store
    ∧ (stepConsume s m false).queue = (formBatch s.queue m).2
    ∧ (formBatch s.queue m).1 ++ (formBatch s.queue m).2 = s.queue
    ∧ (stepConsume s m false).stats.unique_processed
        = s.stats.unique_processed
    ∧ (stepConsume s m false).stats.received = s.stats.received
    ∧ (∀ m', (stepConsume (stepConsume s m false) m' true).store
        = (batch_mark_events_processed s.store
            (formBatch (formBatch s.queue m).2 m').1 true).store) := by
  rcases s with ⟨q, st, stats⟩
  obtain ⟨e, rest, rfl⟩ := List.exists_cons_of_ne_nil h
  have hne : (formBatch (e :: rest) m).1 ≠ [] := by simp [formBatch]
  have hbm := batch_mark_false st (formBatch (e :: rest) m).1 hne
  refine ⟨by rw [hbm], by rw [hbm], ?_, ?_, formBatch_append _ m, ?_, ?_, ?_⟩
  · simp only [stepConsume, hbm]
  · simp only [stepConsume, hbm]
  · simp only [stepConsume, hbm, inc_unique, inc_duplicate]
    omega
  · simp only [stepConsume, hbm, inc_unique, inc_duplicate]
  · intro m'
    cases hafter : (formBatch (e :: rest) m).2 with
    | nil =>
      simp only [stepConsume, hbm, hafter, inc_unique, inc_duplicate]
      rfl
    | cons a t =>
      simp only [stepConsume, hbm, hafter, inc_unique, inc_duplicate]

/-- C8 witness: with `[evA, evB]` queued and a batch of just `evA`
failing, the store is untouched, `evA` is dropped (not requeued), and the
subsequent successful iteration commits `evB` against the same store. -/
theorem claim_C8_persistence_failure_witness :
    (batch_mark_events_processed
        (⟨[evA, evB], [], ⟨2, 0, 0, 0⟩⟩ : SysState).store
        (formBatch [evA, evB] 0).1 false).errorLogged = true
    ∧ (stepConsume (⟨[evA, evB], [], ⟨2, 0, 0, 0⟩⟩ : SysState) 0 false).store
        = []
    ∧ (stepConsume (⟨[evA, evB], [], ⟨2, 0, 0, 0⟩⟩ : SysState) 0 false).queue
        = [evB] := by
  have h := claim_C8_persistence_failure
    (⟨[evA, evB], [], ⟨2, 0, 0, 0⟩⟩ : SysState) 0 (by decide)
  refine ⟨h.1, h.2.2.1, ?_⟩
  rw [h.2.2.2.1]
  decide

/-- C10: a failing commit returns count 0 without raising, so the consumer
books the entire batch as duplicates: `duplicate_dropped` grows by the
whole batch size while `unique_processed` and the store do not change;
the drained-queue identity `received = unique_processed +
duplicate_dropped` is kept on every trace, but on the concrete failing
trace `duplicate_dropped = 1` exceeds the 0 actual duplicate arrivals and
the store stays empty. -/
theorem claim_C10_failed_batch_counted_duplicate :
    (∀ (st : List Row) (es : List Event), es ≠ [] →
        (batch_mark_events_processed st es false).count = 0
        ∧ (batch_mark_events_processed st es false).store = st)
    ∧ (∀ (s : SysState) (m : Nat), s.queue ≠ [] →
        (stepConsume s m false).stats.duplicate_dropped
          = s.stats.duplicate_dropped + (formBatch s.queue m).1.length
        ∧ (stepConsume s m false).stats.unique_processed
            = s.stats.unique_processed
        ∧ (stepConsume s m false).stats.received = s.stats.received)
    ∧ (∀ (t0 : ℚ) (acts : List Act),
        (run (initState t0) acts).queue = [] →
        (run (initState t0) acts).stats.unique_processed
          + (run (initState t0) acts).stats.duplicate_dropped
          = (run (initState t0) acts).stats.received)
    ∧ ((run (initState 0)
          [Act.publish [evA], Act.consume 0 false]).stats.duplicate_dropped
        = 1
      ∧ actualDuplicates [Act.publish [evA], Act.consume 0 false] = 0
      ∧ (run (initState 0) [Act.publish [evA], Act.consume 0 false]).store
        = []) := by
  refine ⟨?_, ?_, ?_, by decide, by decide, by decide⟩
  · intro st es hne
    rw [batch_mark_false st es hne]
    exact ⟨rfl, rfl⟩
  · intro s m hq
    rcases s with ⟨q, st, stats⟩
    obtain ⟨e, rest, rfl⟩ := List.exists_cons_of_ne_nil hq
    have hbm := batch_mark_false st (formBatch (e :: rest) m).1
      (by simp [formBatch])
    simp only [stepConsume, hbm, inc_unique, inc_duplicate]
    refine ⟨by omega, by omega, trivial⟩
  · intro t0 acts hq
    have hc := run_counts acts (initState t0)
    rw [hq] at hc
    have hrec := run_received acts (initState t0)
    have h0u : (initState t0).stats.unique_processed = 0 := rfl
    have h0d : (initState t0).stats.duplicate_dropped = 0 := rfl
    have h0q : (initState t0).queue.length = 0 := rfl
    have h0r : (initState t0).stats.received = 0 := rfl
    simp only [List.length_nil] at hc
    omega

/-- C10 witness: a failed commit of the fresh event `evA` books it as a
duplicate (`duplicate_dropped` becomes 1) though it is not one. -/
theorem claim_C10_failed_batch_counted_duplicate_witness :
    (batch_mark_events_processed [] [evA] false).count = 0
    ∧ (stepConsume (⟨[evA], [], ⟨1, 0, 0, 0⟩⟩ : SysState) 0
        false).stats.duplicate_dropped = 1 := by
  have h := claim_C10_failed_batch_counted_duplicate
  refine ⟨(h.1 [] [evA] (by decide)).1, ?_⟩
  rw [(h.2.1 (⟨[evA], [], ⟨1, 0, 0, 0⟩⟩ : SysState) 0 (by decide)).1]
  decide

/-- C6 counterexample: `evA2` shares `evA`'s key with a different payload
and source; its batch is successfully committed after `evA`'s, yet no
record read back for its topic carries `evA2`'s source and payload — the
claim fails for committed duplicate events. -/
theorem claim_C6_roundtrip_counterexample :
    ¬ ∃ d ∈ get_events_by_topic
          (batch_mark_events_processed
            (batch_mark_events_processed [] [evA] true).store [evA2]
            true).store
          evA2.topic,
        d.topic = evA2.topic ∧ d.event_id = evA2.event_id
          ∧ d.source = evA2.source ∧ d.payload = evA2.payload := by
  decide

/-- C6 (amended): for every event of a successfully committed batch that
is actually inserted — its key absent from the store and from the earlier
part of its batch — reading its topic back yields a record reproducing
its topic, event_id, source and payload exactly (the payload surviving
`dumps`/`loads`). -/
theorem claim_C6_roundtrip_inserted (st : List Row) (es₁ es₂ : List Event)
    (e : Event)
    (hfresh : hasKey st e.unique_key = false)
    (hfirst : e.unique_key ∉ es₁.map Event.unique_key) :
    ∃ d ∈ get_events_by_topic
        (batch_mark_events_processed st (es₁ ++ e :: es₂) true).store
        e.topic,
      d.topic = e.topic ∧ d.event_id = e.event_id
        ∧ d.source = e.source ∧ d.payload = e.payload := by
  have hrow : eventToRow e
      ∈ (batch_mark_events_processed st (es₁ ++ e :: es₂) true).store := by
    have hnot : (eventToRow e).key ∉ (es₁.map eventToRow).map Row.key := by
      simpa [List.map_map, Function.comp] using hfirst
    have hmem := db_executemany_mem_fresh (es₁.map eventToRow) st
      (eventToRow e) (es₂.map eventToRow) hfresh hnot
    have hne : ((es₁ ++ e :: es₂).map eventToRow) ≠ [] := by simp
    simp only [batch_mark_events_processed, List.isEmpty_eq_true, hne,
      if_false, if_true]
    simpa [List.map_append] using hmem
  exact ⟨rowToDict (eventToRow e),
    mem_get_events_by_topic _ _ _ hrow rfl, rfl, rfl, rfl, rfl⟩

/-- C6 witness: committing the batch `[evA]` on an empty store and reading
topic `logs` back yields a record with `evA`'s topic, event_id, source and
payload. -/
theorem claim_C6_roundtrip_inserted_witness :
    ∃ d ∈ get_events_by_topic
        (batch_mark_events_processed [] [evA] true).store evA.topic,
      d.topic = evA.topic ∧ d.event_id = evA.event_id
        ∧ d.source = evA.source ∧ d.payload = evA.payload :=
  claim_C6_roundtrip_inserted [] [] [] evA (by decide) (by decide)

/-- C9 witness: on the queue `[evA, evB]` the worker's batch is the whole
queue (both items already available, cap not reached), of size 2 within
the bounds. -/
theorem claim_C9_dequeue_batch_witness :
    dequeueBatch [evA, evB] = some ([evA, evB], [])
    ∧ ([evA, evB] : List Event) ++ [] = [evA, evB]
    ∧ 1 ≤ ([evA, evB] : List Event).length
    ∧ ([evA, evB] : List Event).length ≤ CONSUMER_BATCH_SIZE := by
  have h := claim_C9_dequeue_batch [evA, evB] (by decide)
  have hd : dequeueBatch [evA, evB] = some ([evA, evB], []) := by
    rw [h.1]
    decide
  have hb := h.2.1 [evA, evB] [] hd
  exact ⟨hd, hb.1, hb.2.1, hb.2.2⟩
